import Mathlib

/-!
Verification of the RAG (Resource Allocation Graph) deadlock simulator.

The program keeps fixed-capacity tables `req[p][r]` (process p requests
resource r) and `alloc_[r][p]` (resource r is held by process p), together
with name tables and the counters `n_proc`, `n_res`.  We embed that state as
a structure of total functions `Nat → Nat → Bool` (the C arrays, read at
their live indices) plus the two counters; each C operation becomes a pure
function from a state to a state paired with an explicit result, the result
constructors standing for the messages the C code prints on each branch.

The recursive DFS of `dfs_cycle` is embedded with an explicit fuel
parameter; the C recursion terminates because every call marks one more
node visited, so a fuel of `n_proc` (an upper bound on the number of
unvisited nodes) makes the embedding compute exactly the same traversal,
which the lemmas below establish via the invariant
`unvisitedCount ≤ fuel`.
-/

/-- Pointwise update of a `Nat → Bool` table, the shape of `a[i] = b`. -/
def updF (f : Nat → Bool) (i : Nat) (b : Bool) : Nat → Bool :=
  fun j => if j = i then b else f j

/-- The mutable state of the simulator: counters, edge matrices, name
tables.  Names are `List Char`, the shape of the C `char[NAMELEN]` rows. -/
structure RAG where
  n_proc : Nat
  n_res : Nat
  req : Nat → Nat → Bool
  alloc : Nat → Nat → Bool
  P : Nat → List Char
  R : Nat → List Char

/-- `#define MAX_PROC 20` -/
def MAX_PROC : Nat := 20

/-- `#define MAX_RES 20` -/
def MAX_RES : Nat := 20

/-- Outcome of `add_process` / `add_resource`; each constructor is one of
the early-return branches of the C function (capacity message, empty-name
message, duplicate message) or the success print carrying the new id. -/
inductive AddResult where
  | ok (id : Nat)
  | capacityExceeded
  | emptyName
  | duplicateName
deriving DecidableEq

/-- `add_process`: capacity check, empty-name check, duplicate scan over
`P[0..n_proc)`, then `strncpy(P[n_proc], name, NAMELEN-1)` (which keeps at
most 31 characters), clearing of the fresh `req` row, and `n_proc++`. -/
def add_process (s : RAG) (name : List Char) : RAG × AddResult :=
  if MAX_PROC ≤ s.n_proc then (s, AddResult.capacityExceeded)
  else if name.length = 0 then (s, AddResult.emptyName)
  else if (List.range s.n_proc).any (fun i => s.P i == name) then (s, AddResult.duplicateName)
  else
    ({ s with
        n_proc := s.n_proc + 1
        P := fun i => if i = s.n_proc then name.take 31 else s.P i
        req := fun p r => if p = s.n_proc ∧ r < MAX_RES then false else s.req p r },
      AddResult.ok s.n_proc)

/-- `add_resource`: symmetric to `add_process`, clearing the fresh
`alloc_` row. -/
def add_resource (s : RAG) (name : List Char) : RAG × AddResult :=
  if MAX_RES ≤ s.n_res then (s, AddResult.capacityExceeded)
  else if name.length = 0 then (s, AddResult.emptyName)
  else if (List.range s.n_res).any (fun i => s.R i == name) then (s, AddResult.duplicateName)
  else
    ({ s with
        n_res := s.n_res + 1
        R := fun j => if j = s.n_res then name.take 31 else s.R j
        alloc := fun r p => if r = s.n_res ∧ p < MAX_PROC then false else s.alloc r p },
      AddResult.ok s.n_res)

/-- Outcome of `add_allocation_edge`: the need-entities early return, the
already-exists early return, or success carrying the list of owners the
warning loop reported and cleared (in ascending process order). -/
inductive AllocResult where
  | noEntities
  | alreadyExists
  | ok (superseded : List Nat)
deriving DecidableEq

/-- `add_allocation_edge(r, p)`: if `alloc_[r][p]` is already set the call
returns with the already-exists message; otherwise every current owner
`pp < n_proc` of `r` is warned about and cleared, and `alloc_[r][p] = 1`
is installed. -/
def add_allocation_edge (s : RAG) (r p : Nat) : RAG × AllocResult :=
  if s.n_proc = 0 ∨ s.n_res = 0 then (s, AllocResult.noEntities)
  else if s.alloc r p then (s, AllocResult.alreadyExists)
  else
    ({ s with alloc := fun r2 p2 =>
        if r2 = r then (if p2 = p then true else if p2 < s.n_proc then false else s.alloc r2 p2)
        else s.alloc r2 p2 },
      AllocResult.ok ((List.range s.n_proc).filter (fun pp => s.alloc r pp)))

/-- Outcome of the two removal branches of `remove_edges_menu`. -/
inductive RemoveResult where
  | ok
  | edgeNotFound
deriving DecidableEq

/-- Branch 1 of `remove_edges_menu`: clear `req[p][r]` when set, else
report that the edge did not exist. -/
def remove_request_edge (s : RAG) (p r : Nat) : RAG × RemoveResult :=
  if s.req p r then
    ({ s with req := fun p2 r2 => if p2 = p ∧ r2 = r then false else s.req p2 r2 },
      RemoveResult.ok)
  else (s, RemoveResult.edgeNotFound)

/-- Branch 2 of `remove_edges_menu`: clear `alloc_[r][p]` when set, else
report that the edge did not exist. -/
def remove_allocation_edge (s : RAG) (r p : Nat) : RAG × RemoveResult :=
  if s.alloc r p then
    ({ s with alloc := fun r2 p2 => if r2 = r ∧ p2 = p then false else s.alloc r2 p2 },
      RemoveResult.ok)
  else (s, RemoveResult.edgeNotFound)

/-- `build_wfg`: `wfg[p][p2] = 1` exactly when the triple loop finds
`p < n_proc`, some `r < n_res` with `req[p][r]`, and `p2 < n_proc` with
`alloc_[r][p2]`. -/
def build_wfg (s : RAG) : Nat → Nat → Bool :=
  fun p p2 =>
    decide (p < s.n_proc) && decide (p2 < s.n_proc) &&
      (List.range s.n_res).any (fun r => s.req p r && s.alloc r p2)

/-- `find_blocking_resource(p, p2)`: scan `r = 0, 1, ...` below `n_res`
and return the first `r` with `req[p][r] && alloc_[r][p2]`; `none` is the
C return value `-1`. -/
def find_blocking_resource (s : RAG) (p p2 : Nat) : Option Nat :=
  (List.range s.n_res).find? (fun r => s.req p r && s.alloc r p2)

/-- The DFS globals `visited[]`, `in_stack[]` and
`stack_nodes[0..stack_top]` (the list is kept bottom-to-top, so pushing is
appending and `stack_top--` is `dropLast`). -/
structure DfsState where
  visited : Nat → Bool
  inStack : Nat → Bool
  stack : List Nat

/-- The neighbour loop of `dfs_cycle(u)` over the remaining neighbour
list, parameterised by the recursive call `visit` used on unvisited
targets: skip non-edges, recurse into unvisited targets, report a cycle on
a back edge to an on-stack node (the reported list is
`stack_nodes[idx..stack_top]` where `idx` is the first position of `v`,
i.e. `dropWhile`), and on falling out of the loop clear `in_stack[u]` and
pop. -/
def dfsLoop (g : Nat → Nat → Bool)
    (visit : Nat → DfsState → DfsState × Option (List Nat)) (u : Nat) :
    List Nat → DfsState → DfsState × Option (List Nat)
  | [], st =>
    (⟨st.visited, updF st.inStack u false, st.stack.dropLast⟩, none)
  | v :: vs, st =>
    if g u v = true then
      if st.visited v = false then
        match visit v st with
        | (st1, some c) => (st1, some c)
        | (st1, none) => dfsLoop g visit u vs st1
      else if st.inStack v = true then
        (st, some (st.stack.dropWhile (fun x => x != v)))
      else dfsLoop g visit u vs st
    else dfsLoop g visit u vs st

/-- `dfs_cycle(u)`: mark `u` visited and on-stack, push it, then run the
neighbour loop over `v = 0 .. n_proc-1`.  The extra fuel argument only
bounds the recursion depth; `detect_deadlock` passes `n_proc`, which the
lemmas below show is never exhausted. -/
def dfsVisit (g : Nat → Nat → Bool) (n : Nat) :
    Nat → Nat → DfsState → DfsState × Option (List Nat)
  | 0, _, st => (st, none)
  | fuel + 1, u, st =>
    dfsLoop g (dfsVisit g n fuel) u (List.range n)
      ⟨updF st.visited u true, updF st.inStack u true, st.stack ++ [u]⟩

/-- The root loop of `detect_deadlock`: try each still-unvisited process
as a DFS root, in ascending id order, stopping at the first cycle. -/
def detectLoop (g : Nat → Nat → Bool) (n fuel : Nat) :
    List Nat → DfsState → DfsState × Option (List Nat)
  | [], st => (st, none)
  | i :: rest, st =>
    if st.visited i = false then
      match dfsVisit g n fuel i st with
      | (st1, some c) => (st1, some c)
      | (st1, none) => detectLoop g n fuel rest st1
    else detectLoop g n fuel rest st

/-- Outcome of `detect_deadlock`: the no-processes early return, the
no-deadlock message, or the deadlock message together with the process
cycle printed by `print_cycle_from_stack`. -/
inductive DetectResult where
  | noProcesses
  | noDeadlock
  | deadlock (cycle : List Nat)
deriving DecidableEq

/-- The `memset` of `visited`/`in_stack` and `stack_top = -1`. -/
def initDfsState : DfsState := ⟨fun _ => false, fun _ => false, []⟩

/-- `detect_deadlock`: early return when there are no processes, otherwise
build the WFG, reset the DFS state, and run the root loop. -/
def detect_deadlock (s : RAG) : DetectResult :=
  if s.n_proc = 0 then DetectResult.noProcesses
  else
    match detectLoop (build_wfg s) s.n_proc s.n_proc (List.range s.n_proc) initDfsState with
    | (_, some c) => DetectResult.deadlock c
    | (_, none) => DetectResult.noDeadlock

/-- The zeroed state the program starts from (`main`'s `memset`s with both
counters at 0), which is also the state after `reset_graph`. -/
def initRAG : RAG :=
  ⟨0, 0, fun _ _ => false, fun _ _ => false, fun _ => [], fun _ => []⟩

/-- The state built by `sample_prefill`: P0, P1, P2, R0, R1 with
`req[0][0] = alloc_[0][1] = req[1][1] = alloc_[1][0] = 1`. -/
def sampleState : RAG where
  n_proc := 3
  n_res := 2
  req := fun p r => (p == 0 && r == 0) || (p == 1 && r == 1)
  alloc := fun r p => (r == 0 && p == 1) || (r == 1 && p == 0)
  P := fun i =>
    if i = 0 then ['P', '0'] else if i = 1 then ['P', '1']
    else if i = 2 then ['P', '2'] else []
  R := fun j =>
    if j = 0 then ['R', '0'] else if j = 1 then ['R', '1'] else []

/-- Single-owner invariant: among live ids, each resource is held by at
most one process. -/
def singleOwner (s : RAG) : Prop :=
  ∀ r < s.n_res, ∀ p1 < s.n_proc, ∀ p2 < s.n_proc,
    s.alloc r p1 = true → s.alloc r p2 = true → p1 = p2

/-- Fold a list of `(resource, process)` arguments through
`add_allocation_edge`, keeping only the states. -/
def applyAllocCalls (s : RAG) (calls : List (Nat × Nat)) : RAG :=
  calls.foldl (fun st c => (add_allocation_edge st c.1 c.2).1) s

/-- A nonempty list of nodes each of which has a `g`-edge to its cyclic
successor: the shape of a directed cycle (closed walk) in the WFG. -/
def IsCycle (g : Nat → Nat → Bool) (c : List Nat) : Prop :=
  c ≠ [] ∧ ∀ i < c.length, g (c.getD i 0) (c.getD ((i + 1) % c.length) 0) = true

/-- The WFG contains a directed cycle. -/
def HasCycle (g : Nat → Nat → Bool) : Prop := ∃ c, IsCycle g c

/-- Number of nodes below `n` not yet marked visited; the measure that
bounds the remaining recursion depth of `dfs_cycle`. -/
def unvisitedCount (n : Nat) (f : Nat → Bool) : Nat :=
  ((Finset.range n).filter (fun x => f x = false)).card

instance (s : RAG) : Decidable (singleOwner s) := by
  unfold singleOwner; infer_instance

instance (g : Nat → Nat → Bool) (c : List Nat) : Decidable (IsCycle g c) := by
  unfold IsCycle; infer_instance

/-! ## Helper lemmas on the store operations -/

/-- A filter over `range n` whose predicate holds exactly at `p1` is `[p1]`. -/
theorem filter_range_eq_single (q : Nat → Bool) (n p1 : Nat) (hp1 : p1 < n)
    (hq : q p1 = true) (huniq : ∀ x, x < n → q x = true → x = p1) :
    (List.range n).filter q = [p1] := by
  induction n with
  | zero => omega
  | succ m ih =>
    rw [List.range_succ, List.filter_append]
    by_cases hm : p1 = m
    · subst hm
      have hnil : (List.range p1).filter q = [] := by
        rw [List.filter_eq_nil_iff]
        intro a ha hqa
        rw [List.mem_range] at ha
        exact absurd (huniq a (by omega) hqa) (by omega)
      simp [hnil, hq]
    · have hlt : p1 < m := by omega
      have hqm : q m = false := by
        by_contra hc
        exact hm ((huniq m (by omega) (by simpa using hc)).symm ▸ rfl)
      rw [ih hlt fun x hx => huniq x (by omega)]
      simp [hqm]

/-- `add_allocation_edge` preserves the single-owner invariant. -/
theorem alloc_preserves_singleOwner (s : RAG) (r p : Nat) (h : singleOwner s) :
    singleOwner (add_allocation_edge s r p).1 := by
  unfold add_allocation_edge
  split
  · exact h
  · split
    · exact h
    · intro r2 hr2 p1 hp1 p2 hp2 h1 h2
      simp only at h1 h2 hp1 hp2 hr2
      by_cases hrr : r2 = r
      · rw [if_pos hrr] at h1 h2
        by_cases e1 : p1 = p
        · by_cases e2 : p2 = p
          · rw [e1, e2]
          · rw [if_neg e2, if_pos hp2] at h2; exact absurd h2 (by simp)
        · rw [if_neg e1, if_pos hp1] at h1; exact absurd h1 (by simp)
      · rw [if_neg hrr] at h1 h2
        exact h r2 hr2 p1 hp1 p2 hp2 h1 h2

/-! ## Claim theorems: store operations -/

/-- C1: for live process ids `p`, `p2`, the Wait-For Graph computed by
`build_wfg` has the edge `p → p2` exactly when some resource `r` is
requested by `p` and allocated to `p2`. -/
theorem C1_build_wfg_iff (s : RAG) (p p2 : Nat)
    (hp : p < s.n_proc) (hp2 : p2 < s.n_proc) :
    build_wfg s p p2 = true ↔
      ∃ r, r < s.n_res ∧ s.req p r = true ∧ s.alloc r p2 = true := by
  simp [build_wfg, hp, hp2, List.any_eq_true, List.mem_range]

theorem C1_witness :
    build_wfg sampleState 0 1 = true ↔
      ∃ r, r < sampleState.n_res ∧ sampleState.req 0 r = true ∧
        sampleState.alloc r 1 = true :=
  C1_build_wfg_iff sampleState 0 1 (by decide) (by decide)

/-- C3: starting from any state satisfying the single-owner invariant (in
particular the zeroed initial state), any sequence of
`add_allocation_edge` calls leaves every resource with at most one
allocation edge. -/
theorem C3_single_owner (calls : List (Nat × Nat)) (s : RAG)
    (h : singleOwner s) : singleOwner (applyAllocCalls s calls) := by
  induction calls generalizing s with
  | nil => exact h
  | cons c cs ih =>
    simpa [applyAllocCalls] using
      ih (add_allocation_edge s c.1 c.2).1 (alloc_preserves_singleOwner s c.1 c.2 h)

theorem C3_witness :
    singleOwner (applyAllocCalls sampleState [(0, 0), (1, 1), (0, 2)]) :=
  C3_single_owner [(0, 0), (1, 1), (0, 2)] sampleState (by decide)

/-- C4: `add_allocation_edge(r, p)` on live ids of a single-owner state:
an existing `(r, p)` edge fails with the already-exists message and
changes nothing; a different current owner `p1` is superseded (the call
succeeds, removes `(r, p1)`, installs `(r, p)` and reports `p1`); an
unallocated resource is simply installed with nothing superseded. -/
theorem C4_add_allocation_cases (s : RAG) (r p : Nat)
    (hr : r < s.n_res) (hp : p < s.n_proc) (hso : singleOwner s) :
    (s.alloc r p = true → add_allocation_edge s r p = (s, AllocResult.alreadyExists)) ∧
    (∀ p1, p1 < s.n_proc → p1 ≠ p → s.alloc r p1 = true →
      ∃ s2, add_allocation_edge s r p = (s2, AllocResult.ok [p1]) ∧
        s2.alloc r p = true ∧ s2.alloc r p1 = false ∧
        (∀ r2 p2, r2 ≠ r → s2.alloc r2 p2 = s.alloc r2 p2) ∧
        s2.req = s.req ∧ s2.n_proc = s.n_proc ∧ s2.n_res = s.n_res ∧
        s2.P = s.P ∧ s2.R = s.R) ∧
    ((∀ pp, pp < s.n_proc → s.alloc r pp = false) →
      ∃ s2, add_allocation_edge s r p = (s2, AllocResult.ok []) ∧
        s2.alloc r p = true ∧
        (∀ p2, p2 ≠ p → s2.alloc r p2 = s.alloc r p2) ∧
        (∀ r2 p2, r2 ≠ r → s2.alloc r2 p2 = s.alloc r2 p2) ∧
        s2.req = s.req ∧ s2.n_proc = s.n_proc ∧ s2.n_res = s.n_res) := by
  have hne : ¬(s.n_proc = 0 ∨ s.n_res = 0) := by omega
  refine ⟨?_, ?_, ?_⟩
  · intro hcur
    unfold add_allocation_edge
    rw [if_neg hne, if_pos hcur]
  · intro p1 hp1 hp1p hold
    have hnotp : s.alloc r p = false := by
      by_contra hc
      rw [Bool.not_eq_false] at hc
      exact hp1p (hso r hr p1 hp1 p hp hold hc)
    have hfil : (List.range s.n_proc).filter (fun pp => s.alloc r pp) = [p1] :=
      filter_range_eq_single _ s.n_proc p1 hp1 hold
        (fun x hx hqx => hso r hr x hx p1 hp1 hqx hold)
    have heq : add_allocation_edge s r p =
        ({ s with alloc := fun r2 p2 =>
            if r2 = r then (if p2 = p then true else if p2 < s.n_proc then false else s.alloc r2 p2)
            else s.alloc r2 p2 }, AllocResult.ok [p1]) := by
      unfold add_allocation_edge
      rw [if_neg hne, if_neg (by simp [hnotp]), hfil]
    refine ⟨_, heq, ?_, ?_, ?_, rfl, rfl, rfl, rfl, rfl⟩
    · simp
    · simp [hp1p, hp1]
    · intro r2 p2 hr2
      simp [hr2]
  · intro hnone
    have hnotp : s.alloc r p = false := hnone p hp
    have hfil : (List.range s.n_proc).filter (fun pp => s.alloc r pp) = [] := by
      rw [List.filter_eq_nil_iff]
      intro a ha
      rw [List.mem_range] at ha
      simp [hnone a ha]
    have heq : add_allocation_edge s r p =
        ({ s with alloc := fun r2 p2 =>
            if r2 = r then (if p2 = p then true else if p2 < s.n_proc then false else s.alloc r2 p2)
            else s.alloc r2 p2 }, AllocResult.ok []) := by
      unfold add_allocation_edge
      rw [if_neg hne, if_neg (by simp [hnotp]), hfil]
    refine ⟨_, heq, ?_, ?_, ?_, rfl, rfl, rfl⟩
    · simp
    · intro p2 hp2
      by_cases h2 : p2 < s.n_proc
      · simp [hp2, h2, hnone p2 h2]
      · simp [hp2, h2]
    · intro r2 p2 hr2
      simp [hr2]

theorem C4_witness :
    ∃ s2, add_allocation_edge sampleState 0 0 = (s2, AllocResult.ok [1]) ∧
      s2.alloc 0 0 = true ∧ s2.alloc 0 1 = false := by
  obtain ⟨s2, h1, h2, h3, _⟩ :=
    (C4_add_allocation_cases sampleState 0 0 (by decide) (by decide)
      (by decide)).2.1 1 (by decide) (by decide) (by decide)
  exact ⟨s2, h1, h2, h3⟩

/-- A store already holding 19 processes (named a..s), used to exhibit the
capacity boundary of the duplicate-name property. -/
def state19 : RAG where
  n_proc := 19
  n_res := 0
  req := fun _ _ => false
  alloc := fun _ _ => false
  P := fun i =>
    [(['a', 'b', 'c', 'd', 'e', 'f', 'g', 'h', 'i', 'j', 'k', 'l', 'm',
       'n', 'o', 'p', 'q', 'r', 's'].getD i 'z')]
  R := fun _ => []

/-- C7 counterexample: from a store with 19 processes and a fresh valid
name, the first `add_process` succeeds (filling the 20-slot capacity) and
the second call with the same name fails with the capacity message, not
the duplicate-name message. -/
theorem C7_counterexample :
    (add_process state19 ['x']).2 = AddResult.ok 19 ∧
    (add_process (add_process state19 ['x']).1 ['x']).2 = AddResult.capacityExceeded ∧
    (add_process (add_process state19 ['x']).1 ['x']).2 ≠ AddResult.duplicateName := by
  decide

/-- C7 (amended): for a valid name that fits the 32-byte buffer and is
fresh, if the table stays below capacity even after the first insertion,
then the first `add_process` (resp. `add_resource`) succeeds and the
second call with the same name fails with the duplicate-name message,
returning the state unchanged. -/
theorem C7_amended (s : RAG) (name : List Char)
    (hlen : name.length ≠ 0) (hlen31 : name.length ≤ 31)
    (hcapP : s.n_proc + 1 < MAX_PROC)
    (hfreshP : ∀ i, i < s.n_proc → s.P i ≠ name)
    (hcapR : s.n_res + 1 < MAX_RES)
    (hfreshR : ∀ i, i < s.n_res → s.R i ≠ name) :
    (∃ s2, add_process s name = (s2, AddResult.ok s.n_proc) ∧
      s2.n_proc = s.n_proc + 1 ∧
      add_process s2 name = (s2, AddResult.duplicateName)) ∧
    (∃ s2, add_resource s name = (s2, AddResult.ok s.n_res) ∧
      s2.n_res = s.n_res + 1 ∧
      add_resource s2 name = (s2, AddResult.duplicateName)) := by
  rw [MAX_PROC] at hcapP
  rw [MAX_RES] at hcapR
  have htake : name.take 31 = name := List.take_of_length_le hlen31
  constructor
  · have hdup : (List.range s.n_proc).any (fun i => s.P i == name) = false := by
      rw [List.any_eq_false]
      intro i hi
      rw [List.mem_range] at hi
      simpa using hfreshP i hi
    have heq : add_process s name =
        ({ s with
            n_proc := s.n_proc + 1
            P := fun i => if i = s.n_proc then name.take 31 else s.P i
            req := fun p r => if p = s.n_proc ∧ r < MAX_RES then false else s.req p r },
          AddResult.ok s.n_proc) := by
      unfold add_process
      rw [if_neg (by rw [MAX_PROC]; omega), if_neg (by omega), if_neg (by simp [hdup])]
    refine ⟨_, heq, rfl, ?_⟩
    have hdup2 : (List.range (s.n_proc + 1)).any
        (fun i => (if i = s.n_proc then name.take 31 else s.P i) == name) = true := by
      rw [List.any_eq_true]
      exact ⟨s.n_proc, by rw [List.mem_range]; omega, by simp [htake]⟩
    unfold add_process
    rw [if_neg (by rw [MAX_PROC]; simp; omega), if_neg (by omega)]
    simp only [hdup2, if_pos]
  · have hdup : (List.range s.n_res).any (fun j => s.R j == name) = false := by
      rw [List.any_eq_false]
      intro j hj
      rw [List.mem_range] at hj
      simpa using hfreshR j hj
    have heq : add_resource s name =
        ({ s with
            n_res := s.n_res + 1
            R := fun j => if j = s.n_res then name.take 31 else s.R j
            alloc := fun r p => if r = s.n_res ∧ p < MAX_PROC then false else s.alloc r p },
          AddResult.ok s.n_res) := by
      unfold add_resource
      rw [if_neg (by rw [MAX_RES]; omega), if_neg (by omega), if_neg (by simp [hdup])]
    refine ⟨_, heq, rfl, ?_⟩
    have hdup2 : (List.range (s.n_res + 1)).any
        (fun j => (if j = s.n_res then name.take 31 else s.R j) == name) = true := by
      rw [List.any_eq_true]
      exact ⟨s.n_res, by rw [List.mem_range]; omega, by simp [htake]⟩
    unfold add_resource
    rw [if_neg (by rw [MAX_RES]; simp; omega), if_neg (by omega)]
    simp only [hdup2, if_pos]

theorem C7_witness :
    (∃ s2, add_process initRAG ['a'] = (s2, AddResult.ok initRAG.n_proc) ∧
      s2.n_proc = initRAG.n_proc + 1 ∧
      add_process s2 ['a'] = (s2, AddResult.duplicateName)) ∧
    (∃ s2, add_resource initRAG ['a'] = (s2, AddResult.ok initRAG.n_res) ∧
      s2.n_res = initRAG.n_res + 1 ∧
      add_resource s2 ['a'] = (s2, AddResult.duplicateName)) :=
  C7_amended initRAG ['a'] (by decide) (by decide) (by decide)
    (fun i hi => absurd hi (Nat.not_lt_zero i)) (by decide)
    (fun j hj => absurd hj (Nat.not_lt_zero j))

/-- C8: removing an absent request (resp. allocation) edge reports that
the edge did not exist and returns the state unchanged; removing a present
edge clears exactly that matrix cell and succeeds, all other state intact. -/
theorem C8_remove_edges (s : RAG) (p r : Nat)
    (_hp : p < s.n_proc) (_hr : r < s.n_res) :
    (s.req p r = false → remove_request_edge s p r = (s, RemoveResult.edgeNotFound)) ∧
    (s.req p r = true → ∃ s2, remove_request_edge s p r = (s2, RemoveResult.ok) ∧
      s2.req p r = false ∧
      (∀ p2 r2, ¬(p2 = p ∧ r2 = r) → s2.req p2 r2 = s.req p2 r2) ∧
      s2.alloc = s.alloc ∧ s2.n_proc = s.n_proc ∧ s2.n_res = s.n_res ∧
      s2.P = s.P ∧ s2.R = s.R) ∧
    (s.alloc r p = false → remove_allocation_edge s r p = (s, RemoveResult.edgeNotFound)) ∧
    (s.alloc r p = true → ∃ s2, remove_allocation_edge s r p = (s2, RemoveResult.ok) ∧
      s2.alloc r p = false ∧
      (∀ r2 p2, ¬(r2 = r ∧ p2 = p) → s2.alloc r2 p2 = s.alloc r2 p2) ∧
      s2.req = s.req ∧ s2.n_proc = s.n_proc ∧ s2.n_res = s.n_res ∧
      s2.P = s.P ∧ s2.R = s.R) := by
  refine ⟨?_, ?_, ?_, ?_⟩
  · intro h
    unfold remove_request_edge
    rw [if_neg (by simp [h])]
  · intro h
    have heq : remove_request_edge s p r =
        ({ s with req := fun p2 r2 => if p2 = p ∧ r2 = r then false else s.req p2 r2 },
          RemoveResult.ok) := by
      unfold remove_request_edge
      rw [if_pos h]
    refine ⟨_, heq, by simp, ?_, rfl, rfl, rfl, rfl, rfl⟩
    intro p2 r2 hne
    simp [hne]
  · intro h
    unfold remove_allocation_edge
    rw [if_neg (by simp [h])]
  · intro h
    have heq : remove_allocation_edge s r p =
        ({ s with alloc := fun r2 p2 => if r2 = r ∧ p2 = p then false else s.alloc r2 p2 },
          RemoveResult.ok) := by
      unfold remove_allocation_edge
      rw [if_pos h]
    refine ⟨_, heq, by simp, ?_, rfl, rfl, rfl, rfl, rfl⟩
    intro r2 p2 hne
    simp [hne]

theorem C8_witness :
    remove_allocation_edge sampleState 0 0 = (sampleState, RemoveResult.edgeNotFound) ∧
    ∃ s2, remove_request_edge sampleState 0 0 = (s2, RemoveResult.ok) ∧
      s2.req 0 0 = false := by
  have h := C8_remove_edges sampleState 0 0 (by decide) (by decide)
  refine ⟨h.2.2.1 (by decide), ?_⟩
  obtain ⟨s2, h1, h2, _⟩ := h.2.1 (by decide)
  exact ⟨s2, h1, h2⟩

/-- C9: with zero processes the deadlock check takes the early
no-processes return, the informational outcome the specification calls
`NoProcesses` (trivially no deadlock, not an error and not a cycle
report). -/
theorem C9_no_processes (s : RAG) (h : s.n_proc = 0) :
    detect_deadlock s = DetectResult.noProcesses := by
  unfold detect_deadlock
  rw [if_pos h]

theorem C9_witness : detect_deadlock initRAG = DetectResult.noProcesses :=
  C9_no_processes initRAG rfl

/-- C10: given the empty name, `add_process` and `add_resource` return the
state unchanged and never register anything; below capacity the abort is
precisely the empty-name branch. -/
theorem C10_empty_name (s : RAG) :
    ((add_process s []).1 = s ∧
      ((add_process s []).2 = AddResult.emptyName ∨
        (add_process s []).2 = AddResult.capacityExceeded) ∧
      (s.n_proc < MAX_PROC → (add_process s []).2 = AddResult.emptyName)) ∧
    ((add_resource s []).1 = s ∧
      ((add_resource s []).2 = AddResult.emptyName ∨
        (add_resource s []).2 = AddResult.capacityExceeded) ∧
      (s.n_res < MAX_RES → (add_resource s []).2 = AddResult.emptyName)) := by
  constructor
  · by_cases h : MAX_PROC ≤ s.n_proc
    · refine ⟨?_, Or.inr ?_, fun hlt => absurd hlt (by omega)⟩ <;>
        · unfold add_process
          rw [if_pos h]
    · refine ⟨?_, Or.inl ?_, fun _ => ?_⟩ <;>
        · unfold add_process
          rw [if_neg h]
          simp
  · by_cases h : MAX_RES ≤ s.n_res
    · refine ⟨?_, Or.inr ?_, fun hlt => absurd hlt (by omega)⟩ <;>
        · unfold add_resource
          rw [if_pos h]
    · refine ⟨?_, Or.inl ?_, fun _ => ?_⟩ <;>
        · unfold add_resource
          rw [if_neg h]
          simp

/-! ## Generic helper lemmas for the DFS development -/

theorem updF_self (f : Nat → Bool) (i : Nat) (b : Bool) : updF f i b i = b := by
  simp [updF]

theorem updF_ne (f : Nat → Bool) (i : Nat) (b : Bool) {j : Nat} (h : j ≠ i) :
    updF f i b j = f j := by
  simp [updF, h]

theorem mem_of_getD {l : List Nat} {i : Nat} (h : i < l.length) (d : Nat) :
    l.getD i d ∈ l := by
  rw [List.getD_eq_getElem l d h]
  exact List.getElem_mem h

theorem getD_of_mem {l : List Nat} {x : Nat} (h : x ∈ l) :
    ∃ i, i < l.length ∧ l.getD i 0 = x := by
  obtain ⟨i, hi, hx⟩ := List.mem_iff_getElem.mp h
  exact ⟨i, hi, by rw [List.getD_eq_getElem l 0 hi]; exact hx⟩

theorem getD_concat_len (l : List Nat) (u d : Nat) : (l ++ [u]).getD l.length d = u := by
  rw [List.getD_append_right l [u] d l.length (le_refl _), Nat.sub_self]
  rfl

/-- `dropWhile (· != v)` on a list containing `v` keeps the suffix that
starts at the first occurrence of `v`. -/
theorem dropWhile_ne_decomp :
    ∀ (l : List Nat) (v : Nat), v ∈ l →
      ∃ l1 t, l.dropWhile (fun x => x != v) = v :: t ∧ l = l1 ++ v :: t := by
  intro l v hv
  induction l with
  | nil => cases hv
  | cons a l ih =>
    by_cases hav : a = v
    · subst hav
      exact ⟨[], l, by simp [List.dropWhile_cons], rfl⟩
    · have hv2 : v ∈ l := by
        rcases List.mem_cons.mp hv with h | h
        · exact absurd h.symm hav
        · exact h
      obtain ⟨l1, t, h1, h2⟩ := ih hv2
      refine ⟨a :: l1, t, ?_, by rw [List.cons_append, ← h2]⟩
      rw [List.dropWhile_cons, if_pos (by simp [hav])]
      exact h1

theorem unvisitedCount_le (n : Nat) (f : Nat → Bool) : unvisitedCount n f ≤ n := by
  unfold unvisitedCount
  calc ((Finset.range n).filter (fun x => f x = false)).card
      ≤ (Finset.range n).card := Finset.card_filter_le _ _
    _ = n := Finset.card_range n

theorem unvisitedCount_pos (n : Nat) (f : Nat → Bool) {u : Nat} (hu : u < n)
    (hf : f u = false) : 0 < unvisitedCount n f := by
  apply Finset.card_pos.mpr
  exact ⟨u, Finset.mem_filter.mpr ⟨Finset.mem_range.mpr hu, hf⟩⟩

theorem unvisitedCount_mark (n : Nat) (f : Nat → Bool) {u : Nat} (hu : u < n)
    (hf : f u = false) : unvisitedCount n (updF f u true) + 1 = unvisitedCount n f := by
  have hset : (Finset.range n).filter (fun x => updF f u true x = false) =
      ((Finset.range n).filter (fun x => f x = false)).erase u := by
    ext x
    by_cases hx : x = u
    · subst hx
      simp [updF]
    · simp [updF, hx, Finset.mem_erase, Finset.mem_filter]
  unfold unvisitedCount
  rw [hset, Finset.card_erase_of_mem
    (Finset.mem_filter.mpr ⟨Finset.mem_range.mpr hu, hf⟩)]
  have := unvisitedCount_pos n f hu hf
  unfold unvisitedCount at this
  omega

theorem unvisitedCount_mono (n : Nat) {f f2 : Nat → Bool}
    (h : ∀ x, f x = true → f2 x = true) : unvisitedCount n f2 ≤ unvisitedCount n f := by
  apply Finset.card_le_card
  intro x hx
  rw [Finset.mem_filter] at hx ⊢
  refine ⟨hx.1, ?_⟩
  cases hfx : f x with
  | false => rfl
  | true => exact absurd (h x hfx) (by simp [hx.2])

/-- Bounds of the WFG: every edge connects live process ids. -/
theorem build_wfg_lt (s : RAG) (a b : Nat) (h : build_wfg s a b = true) :
    a < s.n_proc ∧ b < s.n_proc := by
  unfold build_wfg at h
  simp only [Bool.and_eq_true, decide_eq_true_eq] at h
  exact ⟨h.1.1, h.1.2⟩

/-- Characterisation of WFG edges without liveness side conditions. -/
theorem build_wfg_eq_true (s : RAG) (p p2 : Nat) :
    build_wfg s p p2 = true ↔
      p < s.n_proc ∧ p2 < s.n_proc ∧
        ∃ r, r < s.n_res ∧ s.req p r = true ∧ s.alloc r p2 = true := by
  simp [build_wfg, List.any_eq_true, List.mem_range, and_assoc]

/-- Build a cyclic-successor cycle out of a chain whose last element loops
back to its head. -/
theorem isCycle_intro (g : Nat → Nat → Bool) (c : List Nat) (hne : c ≠ [])
    (hchain : List.Chain' (fun a b => g a b = true) c)
    (hclose : ∀ x, c.getLast? = some x → g x (c.getD 0 0) = true) :
    IsCycle g c := by
  refine ⟨hne, ?_⟩
  intro i hi
  by_cases h1 : i + 1 < c.length
  · rw [Nat.mod_eq_of_lt h1]
    have := List.chain'_iff_get.mp hchain i (by omega)
    rw [List.getD_eq_getElem c 0 hi, List.getD_eq_getElem c 0 h1]
    simpa using this
  · have hlen : i = c.length - 1 := by omega
    have hmod : (i + 1) % c.length = 0 := by
      have : i + 1 = c.length := by
        have := List.length_pos.mpr hne
        omega
      rw [this, Nat.mod_self]
    rw [hmod]
    have hlast : c.getLast? = some (c.getD i 0) := by
      rw [List.getLast?_eq_getLast c hne, List.getLast_eq_getElem c hne]
      rw [List.getD_eq_getElem c 0 hi]
      congr 1
      simp [hlen]
    exact hclose _ hlast

/-- The invariant carried by the DFS: the on-stack markers mirror the
stack, the stack has no duplicates and is a path in `g`, the visited set
is exactly stack-or-finished, finished nodes are off the stack, and the
finished list `L` (in finishing order) only has edges pointing backwards
into itself — the witness that the explored region is cycle-free. -/
def DfsInv (g : Nat → Nat → Bool) (st : DfsState) (L : List Nat) : Prop :=
  st.stack.Nodup ∧
  (∀ x, st.inStack x = true ↔ x ∈ st.stack) ∧
  List.Chain' (fun a b => g a b = true) st.stack ∧
  (∀ x, st.visited x = true ↔ (x ∈ st.stack ∨ x ∈ L)) ∧
  (∀ x ∈ L, x ∉ st.stack) ∧
  (∀ i, i < L.length → ∀ v, g (L.getD i 0) v = true → ∃ j, j < i ∧ L.getD j 0 = v)

/-- A list whose every member's edges point strictly backwards cannot meet
a cycle. -/
theorem no_cycle_of_topo (g : Nat → Nat → Bool) (L : List Nat)
    (htopo : ∀ i, i < L.length → ∀ v, g (L.getD i 0) v = true → ∃ j, j < i ∧ L.getD j 0 = v)
    (c : List Nat) (hc : IsCycle g c) (hmem : ∀ x ∈ c, x ∈ L) : False := by
  obtain ⟨hne, hcyc⟩ := hc
  have hlenc : 0 < c.length := List.length_pos.mpr hne
  have hex : ∃ i, i < L.length ∧ L.getD i 0 ∈ c := by
    have hc0 : c.getD 0 0 ∈ c := mem_of_getD hlenc 0
    obtain ⟨i, hi, hgd⟩ := getD_of_mem (hmem _ hc0)
    exact ⟨i, hi, by rw [hgd]; exact hc0⟩
  classical
  let i0 := Nat.find hex
  obtain ⟨hi0, hmemc⟩ : i0 < L.length ∧ L.getD i0 0 ∈ c := Nat.find_spec hex
  obtain ⟨k, hk, hkx⟩ := getD_of_mem hmemc
  have hedge : g (c.getD k 0) (c.getD ((k + 1) % c.length) 0) = true := hcyc k hk
  rw [hkx] at hedge
  have hsucc_mem : c.getD ((k + 1) % c.length) 0 ∈ c :=
    mem_of_getD (Nat.mod_lt _ hlenc) 0
  obtain ⟨j, hj, hjd⟩ := htopo i0 hi0 _ hedge
  have : j < L.length ∧ L.getD j 0 ∈ c := ⟨by omega, by rw [hjd]; exact hsucc_mem⟩
  exact Nat.find_min hex hj this


/-- The cycle reported on a back edge `u → v` (with `v` on the stack) is a
genuine directed cycle: the suffix of the stack from the first occurrence
of `v`, closed by the back edge. -/
theorem cycle_of_back_edge (g : Nat → Nat → Bool) (st : DfsState) (u v : Nat)
    (hch : List.Chain' (fun a b => g a b = true) st.stack)
    (hlast : st.stack.getLast? = some u)
    (hmem : v ∈ st.stack) (hedge : g u v = true) :
    IsCycle g (st.stack.dropWhile (fun x => x != v)) := by
  obtain ⟨l1, t, hdw, hsplit⟩ := dropWhile_ne_decomp st.stack v hmem
  rw [hdw]
  have hlast2 : (v :: t).getLast? = some u := by
    rw [hsplit, List.getLast?_append] at hlast
    cases hvt : (v :: t).getLast? with
    | none => simp at hvt
    | some y =>
      rw [hvt] at hlast
      simp [Option.or] at hlast
      exact congrArg some hlast
  apply isCycle_intro
  · simp
  · rw [hsplit] at hch
    exact (List.chain'_append.mp hch).2.1
  · intro x hx
    rw [hlast2] at hx
    have hxu : x = u := by simpa using hx.symm
    subst hxu
    simpa using hedge

/-- Post-condition of one `dfs_cycle(u)` call: any reported list is a real
cycle of `g`; a cycle-free return restores the stack and the on-stack
markers, only grows the visited set and the finished list, and finishes
`u`, all while keeping the invariant. -/
def VisitPost (g : Nat → Nat → Bool) (u : Nat) (st : DfsState)
    (out : DfsState × Option (List Nat)) (L : List Nat) : Prop :=
  (∀ c, out.2 = some c → IsCycle g c) ∧
  (out.2 = none → ∃ L2, DfsInv g out.1 L2 ∧
    out.1.stack = st.stack ∧
    (∀ x, out.1.inStack x = st.inStack x) ∧
    (∀ x, st.visited x = true → out.1.visited x = true) ∧
    (∀ x, x ∈ L → x ∈ L2) ∧ u ∈ L2)

/-- Post-condition of the neighbour loop of `dfs_cycle(u)`: as for
`VisitPost`, except that a cycle-free exit pops `u` and clears its
on-stack marker. -/
def LoopPost (g : Nat → Nat → Bool) (u : Nat) (st : DfsState)
    (out : DfsState × Option (List Nat)) (L : List Nat) : Prop :=
  (∀ c, out.2 = some c → IsCycle g c) ∧
  (out.2 = none → ∃ L2, DfsInv g out.1 L2 ∧
    out.1.stack = st.stack.dropLast ∧
    (∀ x, out.1.inStack x = if x = u then false else st.inStack x) ∧
    (∀ x, st.visited x = true → out.1.visited x = true) ∧
    (∀ x, x ∈ L → x ∈ L2) ∧ u ∈ L2)

/-- Invariant preservation through the neighbour loop, assuming it for the
recursive calls at the current fuel level. -/
theorem dfs_loop_lemma (g : Nat → Nat → Bool) (n : Nat)
    (hg : ∀ a b, g a b = true → a < n ∧ b < n) (fuel : Nat)
    (hvisit : ∀ u st L, DfsInv g st L → st.visited u = false → u < n →
      (st.stack = [] ∨ ∃ t2, st.stack.getLast? = some t2 ∧ g t2 u = true) →
      unvisitedCount n st.visited ≤ fuel →
      VisitPost g u st (dfsVisit g n fuel u st) L) :
    ∀ (vs : List Nat) (u : Nat) (st : DfsState) (L : List Nat),
      DfsInv g st L → st.stack.getLast? = some u →
      unvisitedCount n st.visited ≤ fuel →
      (∀ v, g u v = true → v ∈ vs ∨ v ∈ L) →
      LoopPost g u st (dfsLoop g (dfsVisit g n fuel) u vs st) L := by
  intro vs
  induction vs with
  | nil =>
    intro u st L hInv hlast hcount hscan
    obtain ⟨hnd, hins, hch, hvis, hdisj, htopo⟩ := hInv
    have hsne : st.stack ≠ [] := by
      intro h; rw [h] at hlast; simp at hlast
    have hu_eq : st.stack.getLast hsne = u := by
      have h2 := List.getLast?_eq_getLast st.stack hsne
      rw [h2] at hlast
      exact Option.some.inj hlast
    have hdecomp : st.stack.dropLast ++ [u] = st.stack := by
      have h2 := List.dropLast_append_getLast hsne
      rw [hu_eq] at h2
      exact h2
    have hnd2 : (st.stack.dropLast ++ [u]).Nodup := by rw [hdecomp]; exact hnd
    obtain ⟨hnd_dl, -, hdisj_dl⟩ := List.nodup_append.mp hnd2
    have hu_notin : u ∉ st.stack.dropLast := fun hmem => hdisj_dl hmem (by simp)
    show LoopPost g u st
      (⟨st.visited, updF st.inStack u false, st.stack.dropLast⟩, none) L
    unfold LoopPost
    refine ⟨fun c hc => Option.noConfusion hc, fun _ => ?_⟩
    refine ⟨L ++ [u], ⟨?_, ?_, ?_, ?_, ?_, ?_⟩, rfl, fun x => rfl, fun x hx => hx,
      fun x hx => List.mem_append_left _ hx, List.mem_append_right _ (by simp)⟩
    · exact hnd_dl
    · intro x
      show updF st.inStack u false x = true ↔ x ∈ st.stack.dropLast
      constructor
      · intro hx
        by_cases hxu : x = u
        · subst hxu; rw [updF_self] at hx; cases hx
        · rw [updF_ne _ _ _ hxu] at hx
          have h3 := (hins x).mp hx
          rw [← hdecomp] at h3
          rcases List.mem_append.mp h3 with h4 | h4
          · exact h4
          · simp at h4; exact absurd h4 hxu
      · intro hx
        have hxu : x ≠ u := fun he => hu_notin (he ▸ hx)
        rw [updF_ne _ _ _ hxu]
        exact (hins x).mpr (by rw [← hdecomp]; exact List.mem_append_left _ hx)
    · show List.Chain' (fun a b => g a b = true) st.stack.dropLast
      have h2 : List.Chain' (fun a b => g a b = true) (st.stack.dropLast ++ [u]) := by
        rw [hdecomp]; exact hch
      exact (List.chain'_append.mp h2).1
    · intro x
      show st.visited x = true ↔ x ∈ st.stack.dropLast ∨ x ∈ L ++ [u]
      rw [hvis x]
      constructor
      · rintro (h | h)
        · rw [← hdecomp] at h
          rcases List.mem_append.mp h with h2 | h2
          · exact Or.inl h2
          · exact Or.inr (List.mem_append_right _ h2)
        · exact Or.inr (List.mem_append_left _ h)
      · rintro (h | h)
        · exact Or.inl (by rw [← hdecomp]; exact List.mem_append_left _ h)
        · rcases List.mem_append.mp h with h2 | h2
          · exact Or.inr h2
          · simp at h2; subst h2
            exact Or.inl (by rw [← hdecomp]; exact List.mem_append_right _ (by simp))
    · intro x hx
      show x ∉ st.stack.dropLast
      rcases List.mem_append.mp hx with h4 | h4
      · intro hmem
        exact hdisj x h4 (by rw [← hdecomp]; exact List.mem_append_left _ hmem)
      · simp at h4; subst h4; exact hu_notin
    · intro i hi v hedge
      rw [List.length_append, List.length_singleton] at hi
      by_cases hiL : i < L.length
      · rw [List.getD_append _ _ _ _ hiL] at hedge
        obtain ⟨j, hj, hjd⟩ := htopo i hiL v hedge
        exact ⟨j, hj, by rw [List.getD_append _ _ _ _ (by omega)]; exact hjd⟩
      · have hieq : i = L.length := by omega
        rw [hieq, getD_concat_len] at hedge
        rcases hscan v hedge with h4 | h4
        · cases h4
        · obtain ⟨j, hj, hjd⟩ := getD_of_mem h4
          exact ⟨j, by omega, by rw [List.getD_append _ _ _ _ hj]; exact hjd⟩
  | cons v vs ih =>
    intro u st L hInv hlast hcount hscan
    unfold LoopPost
    simp only [dfsLoop]
    by_cases hgv : g u v = true
    · rw [if_pos hgv]
      by_cases hvv : st.visited v = false
      · rw [if_pos hvv]
        have hvlt : v < n := (hg u v hgv).2
        have hpost := hvisit v st L hInv hvv hvlt (Or.inr ⟨u, hlast, hgv⟩) hcount
        rcases hres : dfsVisit g n fuel v st with ⟨st1, res1⟩
        rw [hres] at hpost
        unfold VisitPost at hpost
        cases res1 with
        | some c =>
          refine ⟨fun c2 hc2 => hpost.1 c2 hc2, fun hnone => ?_⟩
          exact absurd hnone (by simp)
        | none =>
          obtain ⟨L1, hInv1, hstk1, hins1, hmono1, hsub1, humem1⟩ := hpost.2 rfl
          have hlast1 : st1.stack.getLast? = some u := by rw [hstk1]; exact hlast
          have hcount1 : unvisitedCount n st1.visited ≤ fuel :=
            le_trans (unvisitedCount_mono n hmono1) hcount
          have hscan1 : ∀ w, g u w = true → w ∈ vs ∨ w ∈ L1 := by
            intro w hw
            rcases hscan w hw with h | h
            · rcases List.mem_cons.mp h with h2 | h2
              · subst h2; exact Or.inr humem1
              · exact Or.inl h2
            · exact Or.inr (hsub1 w h)
          have hloop := ih u st1 L1 hInv1 hlast1 hcount1 hscan1
          unfold LoopPost at hloop
          refine ⟨hloop.1, fun hnone => ?_⟩
          obtain ⟨L2, hInv2, hstk2, hins2, hmono2, hsub2, humem2⟩ := hloop.2 hnone
          refine ⟨L2, hInv2, ?_, ?_, ?_, ?_, humem2⟩
          · rw [hstk2, hstk1]
          · intro x; rw [hins2 x, hins1 x]
          · intro x hx; exact hmono2 x (hmono1 x hx)
          · intro x hx; exact hsub2 x (hsub1 x hx)
      · rw [if_neg hvv]
        have hvv2 : st.visited v = true := by
          cases h2 : st.visited v
          · exact absurd h2 hvv
          · rfl
        by_cases hsv : st.inStack v = true
        · rw [if_pos hsv]
          refine ⟨fun c hc => ?_, fun hnone => absurd hnone (by simp)⟩
          have hc2 : st.stack.dropWhile (fun x => x != v) = c := by
            simpa using hc
          rw [← hc2]
          exact cycle_of_back_edge g st u v hInv.2.2.1 hlast ((hInv.2.1 v).mp hsv) hgv
        · rw [if_neg hsv]
          have hvL : v ∈ L := by
            rcases (hInv.2.2.2.1 v).mp hvv2 with h | h
            · exact absurd ((hInv.2.1 v).mpr h) hsv
            · exact h
          have hloop := ih u st L hInv hlast hcount (by
            intro w hw
            rcases hscan w hw with h | h
            · rcases List.mem_cons.mp h with h2 | h2
              · subst h2; exact Or.inr hvL
              · exact Or.inl h2
            · exact Or.inr h)
          unfold LoopPost at hloop
          exact hloop
    · rw [if_neg hgv]
      have hloop := ih u st L hInv hlast hcount (by
        intro w hw
        rcases hscan w hw with h | h
        · rcases List.mem_cons.mp h with h2 | h2
          · subst h2; exact absurd hw hgv
          · exact Or.inl h2
        · exact Or.inr h)
      unfold LoopPost at hloop
      exact hloop

/-- Main DFS lemma: with enough fuel (at least the number of unvisited
live nodes — `detect_deadlock`'s choice of `n_proc` always is),
`dfs_cycle` satisfies its post-condition. -/
theorem dfs_visit_lemma (g : Nat → Nat → Bool) (n : Nat)
    (hg : ∀ a b, g a b = true → a < n ∧ b < n) :
    ∀ (fuel : Nat) (u : Nat) (st : DfsState) (L : List Nat),
      DfsInv g st L → st.visited u = false → u < n →
      (st.stack = [] ∨ ∃ t2, st.stack.getLast? = some t2 ∧ g t2 u = true) →
      unvisitedCount n st.visited ≤ fuel →
      VisitPost g u st (dfsVisit g n fuel u st) L := by
  intro fuel
  induction fuel with
  | zero =>
    intro u st L hInv hvu hu hpc hcount
    have hpos := unvisitedCount_pos n st.visited hu hvu
    exact absurd hcount (by omega)
  | succ f ih =>
    intro u st L hInv hvu hu hpc hcount
    obtain ⟨hnd, hins, hch, hvis, hdisj, htopo⟩ := hInv
    have hu_notin : u ∉ st.stack := fun hmem => by
      have h2 := (hvis u).mpr (Or.inl hmem)
      rw [hvu] at h2; cases h2
    have hu_notinL : u ∉ L := fun hmem => by
      have h2 := (hvis u).mpr (Or.inr hmem)
      rw [hvu] at h2; cases h2
    have hins_u : st.inStack u = false := by
      cases h2 : st.inStack u
      · rfl
      · exact absurd ((hins u).mp h2) hu_notin
    have hInv1 : DfsInv g
        ⟨updF st.visited u true, updF st.inStack u true, st.stack ++ [u]⟩ L := by
      refine ⟨?_, ?_, ?_, ?_, ?_, htopo⟩
      · show (st.stack ++ [u]).Nodup
        rw [List.nodup_append]
        exact ⟨hnd, by simp, fun a ha hu2 => by
          simp at hu2; subst hu2; exact hu_notin ha⟩
      · intro x
        show updF st.inStack u true x = true ↔ x ∈ st.stack ++ [u]
        by_cases hx : x = u
        · subst hx
          rw [updF_self]
          simp
        · rw [updF_ne _ _ _ hx, hins x]
          simp [List.mem_append, hx]
      · show List.Chain' (fun a b => g a b = true) (st.stack ++ [u])
        rw [List.chain'_append]
        refine ⟨hch, by simp, ?_⟩
        intro x hx y hy
        simp at hy; subst hy
        rcases hpc with h | ⟨t2, ht2, hgt⟩
        · rw [h] at hx; simp at hx
        · rw [ht2] at hx; simp at hx; subst hx; exact hgt
      · intro x
        show updF st.visited u true x = true ↔ x ∈ st.stack ++ [u] ∨ x ∈ L
        by_cases hx : x = u
        · subst hx
          rw [updF_self]
          simp [List.mem_append]
        · rw [updF_ne _ _ _ hx, hvis x]
          simp [List.mem_append, hx]
      · intro x hx
        show x ∉ st.stack ++ [u]
        intro hmem
        rcases List.mem_append.mp hmem with h | h
        · exact hdisj x hx h
        · simp at h; subst h; exact hu_notinL hx
    have hlast1 : (st.stack ++ [u]).getLast? = some u := List.getLast?_concat _
    have hcount1 : unvisitedCount n (updF st.visited u true) ≤ f := by
      have h2 := unvisitedCount_mark n st.visited hu hvu
      omega
    have hscan1 : ∀ w, g u w = true → w ∈ List.range n ∨ w ∈ L :=
      fun w hw => Or.inl (List.mem_range.mpr (hg u w hw).2)
    have hloop := dfs_loop_lemma g n hg f ih (List.range n) u
      ⟨updF st.visited u true, updF st.inStack u true, st.stack ++ [u]⟩ L
      hInv1 hlast1 hcount1 hscan1
    unfold LoopPost at hloop
    show VisitPost g u st
      (dfsLoop g (dfsVisit g n f) u (List.range n)
        ⟨updF st.visited u true, updF st.inStack u true, st.stack ++ [u]⟩) L
    unfold VisitPost
    refine ⟨hloop.1, fun hnone => ?_⟩
    obtain ⟨L2, hInv2, hstk2, hins2, hmono2, hsub2, humem2⟩ := hloop.2 hnone
    refine ⟨L2, hInv2, ?_, ?_, ?_, hsub2, humem2⟩
    · rw [hstk2]
      show (st.stack ++ [u]).dropLast = st.stack
      exact List.dropLast_concat
    · intro x
      rw [hins2 x]
      by_cases hx : x = u
      · subst hx
        rw [if_pos rfl, hins_u]
      · rw [if_neg hx]
        show updF st.inStack u true x = st.inStack x
        exact updF_ne _ _ _ hx
    · intro x hx
      apply hmono2
      show updF st.visited u true x = true
      by_cases hxu : x = u
      · subst hxu; exact updF_self _ _ _
      · rw [updF_ne _ _ _ hxu]; exact hx

/-- Post-condition of the root loop of `detect_deadlock`. -/
theorem detect_loop_lemma (g : Nat → Nat → Bool) (n : Nat)
    (hg : ∀ a b, g a b = true → a < n ∧ b < n) (fuel : Nat) :
    ∀ (roots : List Nat) (st : DfsState) (L : List Nat),
      DfsInv g st L → st.stack = [] →
      unvisitedCount n st.visited ≤ fuel →
      (∀ i ∈ roots, i < n) →
      (∀ c, (detectLoop g n fuel roots st).2 = some c → IsCycle g c) ∧
      ((detectLoop g n fuel roots st).2 = none →
        ∃ L2, DfsInv g (detectLoop g n fuel roots st).1 L2 ∧
          (detectLoop g n fuel roots st).1.stack = [] ∧
          (∀ x, st.visited x = true → (detectLoop g n fuel roots st).1.visited x = true) ∧
          (∀ i ∈ roots, (detectLoop g n fuel roots st).1.visited i = true)) := by
  intro roots
  induction roots with
  | nil =>
    intro st L hInv hstk hcount hroots
    simp only [detectLoop]
    exact ⟨fun c hc => Option.noConfusion hc,
      fun _ => ⟨L, hInv, hstk, fun x hx => hx, fun i hi => absurd hi (List.not_mem_nil i)⟩⟩
  | cons i rest ih =>
    intro st L hInv hstk hcount hroots
    simp only [detectLoop]
    by_cases hvi : st.visited i = false
    · rw [if_pos hvi]
      have hpost := dfs_visit_lemma g n hg fuel i st L hInv hvi
        (hroots i (List.mem_cons_self i rest)) (Or.inl hstk) hcount
      rcases hres : dfsVisit g n fuel i st with ⟨st1, res1⟩
      rw [hres] at hpost
      unfold VisitPost at hpost
      cases res1 with
      | some c =>
        exact ⟨fun c2 hc2 => hpost.1 c2 hc2, fun hnone => absurd hnone (by simp)⟩
      | none =>
        obtain ⟨L1, hInv1, hstk1, hins1, hmono1, hsub1, himem1⟩ := hpost.2 rfl
        have hvisited1 : st1.visited i = true := by
          rcases hInv1 with ⟨-, -, -, hvis1, -, -⟩
          exact (hvis1 i).mpr (Or.inr himem1)
        have hstk1e : st1.stack = [] := by rw [hstk1]; exact hstk
        have hcount1 : unvisitedCount n st1.visited ≤ fuel :=
          le_trans (unvisitedCount_mono n hmono1) hcount
        have hrest := ih st1 L1 hInv1 hstk1e hcount1
          (fun j hj => hroots j (List.mem_cons_of_mem i hj))
        refine ⟨hrest.1, fun hnone => ?_⟩
        obtain ⟨L2, hInv2, hstk2, hmono2, hroot2⟩ := hrest.2 hnone
        refine ⟨L2, hInv2, hstk2, fun x hx => hmono2 x (hmono1 x hx), ?_⟩
        intro j hj
        rcases List.mem_cons.mp hj with h2 | h2
        · subst h2; exact hmono2 j hvisited1
        · exact hroot2 j h2
    · rw [if_neg hvi]
      have hvi2 : st.visited i = true := by
        cases h2 : st.visited i
        · exact absurd h2 hvi
        · rfl
      have hrest := ih st L hInv hstk hcount
        (fun j hj => hroots j (List.mem_cons_of_mem i hj))
      refine ⟨hrest.1, fun hnone => ?_⟩
      obtain ⟨L2, hInv2, hstk2, hmono2, hroot2⟩ := hrest.2 hnone
      refine ⟨L2, hInv2, hstk2, hmono2, ?_⟩
      intro j hj
      rcases List.mem_cons.mp hj with h2 | h2
      · subst h2; exact hmono2 j hvi2
      · exact hroot2 j h2

/-- The initial DFS state satisfies the invariant with nothing finished. -/
theorem initDfsState_inv (g : Nat → Nat → Bool) : DfsInv g initDfsState [] := by
  refine ⟨List.nodup_nil, ?_, List.chain'_nil, ?_, ?_, ?_⟩
  · intro x; simp [initDfsState]
  · intro x; simp [initDfsState]
  · intro x hx; cases hx
  · intro i hi; simp at hi

/-- Soundness of the deadlock check: a reported cycle is a directed cycle
of the freshly built WFG. -/
theorem detect_sound (s : RAG) (c : List Nat)
    (h : detect_deadlock s = DetectResult.deadlock c) :
    IsCycle (build_wfg s) c := by
  unfold detect_deadlock at h
  by_cases h0 : s.n_proc = 0
  · rw [if_pos h0] at h
    cases h
  · rw [if_neg h0] at h
    have hlem := detect_loop_lemma (build_wfg s) s.n_proc (build_wfg_lt s) s.n_proc
      (List.range s.n_proc) initDfsState [] (initDfsState_inv _) rfl
      (unvisitedCount_le _ _) (fun i hi => List.mem_range.mp hi)
    rcases hres : detectLoop (build_wfg s) s.n_proc s.n_proc (List.range s.n_proc)
        initDfsState with ⟨st2, res⟩
    rw [hres] at h hlem
    cases res with
    | none => cases h
    | some c2 =>
      have : c2 = c := by
        have h2 : DetectResult.deadlock c2 = DetectResult.deadlock c := h
        cases h2; rfl
      subst this
      exact hlem.1 c2 rfl

/-- Completeness of the deadlock check: if it reports no deadlock, the WFG
has no directed cycle. -/
theorem detect_complete (s : RAG) (h0 : s.n_proc ≠ 0)
    (h : detect_deadlock s = DetectResult.noDeadlock) :
    ¬ HasCycle (build_wfg s) := by
  rintro ⟨c, hc⟩
  unfold detect_deadlock at h
  rw [if_neg h0] at h
  have hlem := detect_loop_lemma (build_wfg s) s.n_proc (build_wfg_lt s) s.n_proc
    (List.range s.n_proc) initDfsState [] (initDfsState_inv _) rfl
    (unvisitedCount_le _ _) (fun i hi => List.mem_range.mp hi)
  rcases hres : detectLoop (build_wfg s) s.n_proc s.n_proc (List.range s.n_proc)
      initDfsState with ⟨st2, res⟩
  rw [hres] at h hlem
  cases res with
  | some c2 => cases h
  | none =>
    obtain ⟨L2, hInv2, hstk2, -, hroot2⟩ := hlem.2 rfl
    obtain ⟨-, -, -, hvis2, -, htopo2⟩ := hInv2
    apply no_cycle_of_topo (build_wfg s) L2 htopo2 c hc
    intro x hx
    obtain ⟨i, hi, hgd⟩ := getD_of_mem hx
    have hlen : 0 < c.length := by omega
    have hedge := hc.2 i hi
    rw [hgd] at hedge
    have hxn : x < s.n_proc := (build_wfg_lt s x _ hedge).1
    have hvx : st2.visited x = true := hroot2 x (List.mem_range.mpr hxn)
    rcases (hvis2 x).mp hvx with h2 | h2
    · rw [hstk2] at h2; cases h2
    · exact h2

/-- With live processes, the deadlock check never takes the no-processes
early return. -/
theorem detect_ne_noProcesses (s : RAG) (h0 : s.n_proc ≠ 0) :
    detect_deadlock s ≠ DetectResult.noProcesses := by
  unfold detect_deadlock
  rw [if_neg h0]
  rcases detectLoop (build_wfg s) s.n_proc s.n_proc (List.range s.n_proc)
      initDfsState with ⟨st2, res⟩
  cases res <;> simp

/-- C2: with a non-empty process set, `detect_deadlock` reports no
deadlock exactly when the derived Wait-For Graph has no directed cycle,
and whenever a cycle exists it reports a deadlock with some cycle. -/
theorem C2_detect_iff_no_cycle (s : RAG) (h0 : s.n_proc ≠ 0) :
    (detect_deadlock s = DetectResult.noDeadlock ↔ ¬ HasCycle (build_wfg s)) ∧
    (HasCycle (build_wfg s) → ∃ c, detect_deadlock s = DetectResult.deadlock c) := by
  have hsplit : detect_deadlock s = DetectResult.noDeadlock ∨
      ∃ c, detect_deadlock s = DetectResult.deadlock c := by
    cases hres : detect_deadlock s with
    | noProcesses => exact absurd hres (detect_ne_noProcesses s h0)
    | noDeadlock => exact Or.inl rfl
    | deadlock c => exact Or.inr ⟨c, rfl⟩
  constructor
  · constructor
    · exact detect_complete s h0
    · intro hnc
      rcases hsplit with h | ⟨c, hc⟩
      · exact h
      · exact absurd ⟨c, detect_sound s c hc⟩ hnc
  · intro hc
    rcases hsplit with h | h
    · exact absurd hc (detect_complete s h0 h)
    · exact h

theorem C2_witness : ∃ c, detect_deadlock sampleState = DetectResult.deadlock c :=
  (C2_detect_iff_no_cycle sampleState (by decide)).2 ⟨[0, 1], by decide⟩

/-- First-match characterisation of `find?` over an ascending index
range. -/
theorem find_range_eq_some (n : Nat) (f : Nat → Bool) :
    ∀ r, (List.range n).find? f = some r ↔
      (r < n ∧ f r = true ∧ ∀ j < r, f j = false) := by
  induction n with
  | zero => simp
  | succ m ih =>
    intro r
    rw [List.range_succ, List.find?_append]
    cases hfr : (List.range m).find? f with
    | some a =>
      rw [Option.or_some]
      obtain ⟨ha, hfa, hmin⟩ := (ih a).mp hfr
      constructor
      · intro h
        have hae : a = r := Option.some.inj h
        subst hae
        exact ⟨by omega, hfa, hmin⟩
      · rintro ⟨hr, hfr2, hmin2⟩
        have har : a = r := by
          rcases Nat.lt_trichotomy a r with h2 | h2 | h2
          · exact absurd hfa (by simp [hmin2 a h2])
          · exact h2
          · exact absurd hfr2 (by simp [hmin r h2])
        rw [har]
    | none =>
      have hall : ∀ j < m, f j = false := by
        intro j hj
        have h2 := List.find?_eq_none.mp hfr j (List.mem_range.mpr hj)
        cases h3 : f j
        · rfl
        · exact absurd h3 h2
      rw [Option.none_or]
      cases hfm : f m with
      | true =>
        have hsome : List.find? f [m] = some m := by simp [List.find?, hfm]
        rw [hsome]
        constructor
        · intro h
          have hmr : m = r := Option.some.inj h
          subst hmr
          exact ⟨by omega, hfm, hall⟩
        · rintro ⟨hr, hfr2, hmin2⟩
          have hrm : r = m := by
            rcases Nat.lt_trichotomy r m with h2 | h2 | h2
            · exact absurd hfr2 (by simp [hall r h2])
            · exact h2
            · omega
          rw [hrm]
      | false =>
        have hnone : List.find? f [m] = none := by simp [List.find?, hfm]
        rw [hnone]
        constructor
        · intro h; cases h
        · rintro ⟨hr, hfr2, hmin2⟩
          have h4 : r = m ∨ r < m := by omega
          rcases h4 with h2 | h2
          · subst h2; exact absurd hfr2 (by simp [hfm])
          · exact absurd hfr2 (by simp [hall r h2])

/-- C5: `find_blocking_resource` scans resources in ascending id order and
returns the first `r` requested by `p` and allocated to `p2`; and for
every cycle reported by the detector, every consecutive (cyclically
closed) pair of the cycle admits such a witness, so the `-1` /
resource-unknown fallback of `print_cycle_from_stack` is unreachable. -/
theorem C5_cycle_witnesses (s : RAG) :
    (∀ p p2 r, find_blocking_resource s p p2 = some r ↔
      (r < s.n_res ∧ s.req p r = true ∧ s.alloc r p2 = true ∧
        ∀ j < r, (s.req p j && s.alloc j p2) = false)) ∧
    (∀ c, detect_deadlock s = DetectResult.deadlock c →
      ∀ i < c.length,
        ∃ r, find_blocking_resource s (c.getD i 0)
          (c.getD ((i + 1) % c.length) 0) = some r) := by
  constructor
  · intro p p2 r
    unfold find_blocking_resource
    rw [find_range_eq_some]
    constructor
    · rintro ⟨h1, h2, h3⟩
      rw [Bool.and_eq_true] at h2
      exact ⟨h1, h2.1, h2.2, h3⟩
    · rintro ⟨h1, h2, h3, h4⟩
      exact ⟨h1, by rw [Bool.and_eq_true]; exact ⟨h2, h3⟩, h4⟩
  · intro c hdl i hi
    have hcy := detect_sound s c hdl
    have hedge := hcy.2 i hi
    rw [build_wfg_eq_true] at hedge
    obtain ⟨-, -, r0, hr0, hreq0, hall0⟩ := hedge
    cases hfind : find_blocking_resource s (c.getD i 0) (c.getD ((i + 1) % c.length) 0) with
    | some r => exact ⟨r, rfl⟩
    | none =>
      unfold find_blocking_resource at hfind
      have h2 := List.find?_eq_none.mp hfind r0 (List.mem_range.mpr hr0)
      exact absurd (by rw [Bool.and_eq_true]; exact ⟨hreq0, hall0⟩) h2

theorem C5_witness :
    ∃ r, find_blocking_resource sampleState (([0, 1] : List Nat).getD 0 0)
      (([0, 1] : List Nat).getD ((0 + 1) % ([0, 1] : List Nat).length) 0) = some r :=
  (C5_cycle_witnesses sampleState).2 [0, 1] (by decide) 0 (by decide)

/-- The DFS state after the root loop has processed roots `0..k-1` of a
graph in which those roots have no outgoing edges: the first `k` nodes
visited, empty stack, no on-stack marks. -/
def stVis (k : Nat) : DfsState := ⟨fun x => decide (x < k), fun _ => false, []⟩

theorem stVis_zero : stVis 0 = initDfsState := rfl

/-- The neighbour loop ignores a prefix of neighbours with no edge. -/
theorem dfsLoop_all_skip (g : Nat → Nat → Bool)
    (visit : Nat → DfsState → DfsState × Option (List Nat)) (u : Nat) :
    ∀ (vs1 vs2 : List Nat) (st : DfsState), (∀ v ∈ vs1, g u v = false) →
      dfsLoop g visit u (vs1 ++ vs2) st = dfsLoop g visit u vs2 st := by
  intro vs1
  induction vs1 with
  | nil => intro vs2 st _; rfl
  | cons a l ih =>
    intro vs2 st h
    rw [List.cons_append]
    simp only [dfsLoop]
    rw [if_neg (by simp [h a (List.mem_cons_self a l)])]
    exact ih vs2 st (fun v hv => h v (List.mem_cons_of_mem a hv))

/-- A node with no outgoing edges is pushed, scanned and popped. -/
theorem dfsLoop_no_edges (g : Nat → Nat → Bool)
    (visit : Nat → DfsState → DfsState × Option (List Nat)) (u : Nat)
    (vs : List Nat) (st : DfsState) (h : ∀ v ∈ vs, g u v = false) :
    dfsLoop g visit u vs st =
      (⟨st.visited, updF st.inStack u false, st.stack.dropLast⟩, none) := by
  have h2 := dfsLoop_all_skip g visit u vs [] st h
  rw [List.append_nil] at h2
  rw [h2]
  rfl

theorem push_pop_stVis (k : Nat) :
    (DfsState.mk (updF (stVis k).visited k true)
      (updF (updF (stVis k).inStack k true) k false)
      (((stVis k).stack ++ [k]).dropLast)) = stVis (k + 1) := by
  unfold stVis
  congr 1
  · funext x
    by_cases hx : x = k
    · subst hx; simp [updF]
    · simp only [updF, if_neg hx]
      exact decide_eq_decide.mpr (by omega)
  · funext x
    by_cases hx : x = k <;> simp [updF, hx]

/-- One step of the root loop over a root with no outgoing edges. -/
theorem detectLoop_advance (g : Nat → Nat → Bool) (n fuel k : Nat)
    (hnoedge : ∀ v, g k v = false) (rest : List Nat) :
    detectLoop g n (fuel + 1) (k :: rest) (stVis k) =
      detectLoop g n (fuel + 1) rest (stVis (k + 1)) := by
  simp only [detectLoop]
  rw [if_pos (show (stVis k).visited k = false by simp [stVis])]
  simp only [dfsVisit]
  rw [dfsLoop_no_edges g (dfsVisit g n fuel) k (List.range n) _ (fun v _ => hnoedge v)]
  rw [push_pop_stVis k]

/-- Iterating `detectLoop_advance` past all roots below `p` when `p → p`
is the only edge. -/
theorem detectLoop_skip_to (g : Nat → Nat → Bool) (n fuel p : Nat) (hp : p < n)
    (honly : ∀ a b, g a b = true → a = p ∧ b = p) :
    ∀ j, j ≤ p →
      detectLoop g n (fuel + 1) (List.range' 0 n) (stVis 0) =
        detectLoop g n (fuel + 1) (List.range' j (n - j)) (stVis j) := by
  intro j
  induction j with
  | zero => intro _; rw [Nat.sub_zero]
  | succ i ihj =>
    intro hij
    rw [ihj (by omega)]
    have hrange : List.range' i (n - i) = i :: List.range' (i + 1) (n - (i + 1)) := by
      have h2 : n - i = (n - (i + 1)) + 1 := by omega
      rw [h2, List.range'_succ]
    rw [hrange]
    exact detectLoop_advance g n fuel i (fun v => by
      cases hgv : g i v
      · rfl
      · exact absurd (honly i v hgv).1 (by omega)) _

/-- When the only WFG edge is the self-loop `p → p`, the root loop reaches
`p` with everything below visited and reports the one-node cycle `[p]`. -/
theorem detect_only_self_loop (g : Nat → Nat → Bool) (n p fuel : Nat)
    (hp : p < n) (hself : g p p = true)
    (honly : ∀ a b, g a b = true → a = p ∧ b = p) :
    (detectLoop g n (fuel + 1) (List.range n) initDfsState).2 = some [p] := by
  rw [List.range_eq_range', ← stVis_zero,
    detectLoop_skip_to g n fuel p hp honly p (le_refl p)]
  have hrange : List.range' p (n - p) = p :: List.range' (p + 1) (n - (p + 1)) := by
    have h2 : n - p = (n - (p + 1)) + 1 := by omega
    rw [h2, List.range'_succ]
  rw [hrange]
  simp only [detectLoop]
  rw [if_pos (show (stVis p).visited p = false by simp [stVis])]
  simp only [dfsVisit]
  have hsplit : List.range n = List.range' 0 p ++ List.range' p (n - p) := by
    rw [List.range_eq_range']
    have h3 := List.range'_append 0 p (n - p) 1
    simp only [Nat.zero_add, Nat.one_mul] at h3
    rw [show n - p + p = n by omega] at h3
    exact h3.symm
  rw [hsplit, dfsLoop_all_skip g (dfsVisit g n fuel) p (List.range' 0 p) _ _
    (fun v hv => by
      have hvlt : v < p := by
        have h4 := List.mem_range'_1.mp hv
        omega
      cases hgv : g p v
      · rfl
      · exact absurd (honly p v hgv).2 (by omega)),
    hrange]
  simp only [dfsLoop]
  rw [if_pos hself,
    if_neg (show ¬((⟨updF (stVis p).visited p true, updF (stVis p).inStack p true,
      (stVis p).stack ++ [p]⟩ : DfsState).visited p = false) by simp [updF]),
    if_pos (show (⟨updF (stVis p).visited p true, updF (stVis p).inStack p true,
      (stVis p).stack ++ [p]⟩ : DfsState).inStack p = true by simp [updF])]
  simp [stVis, List.dropWhile]

/-- C6: when a live process `p` both requests and holds a live resource
`r`, the WFG contains the self-loop `p → p`, the detector reports a
deadlock rather than no deadlock, and when that self-loop is the only WFG
edge the reported cycle is exactly the length-1 cycle `[p]`. -/
theorem C6_self_loop (s : RAG) (p r : Nat) (hp : p < s.n_proc) (hr : r < s.n_res)
    (hreq : s.req p r = true) (halloc : s.alloc r p = true) :
    build_wfg s p p = true ∧
    (∃ c, detect_deadlock s = DetectResult.deadlock c) ∧
    ((∀ a b, build_wfg s a b = true → a = p ∧ b = p) →
      detect_deadlock s = DetectResult.deadlock [p]) := by
  have hself : build_wfg s p p = true := by
    rw [build_wfg_eq_true]
    exact ⟨hp, hp, r, hr, hreq, halloc⟩
  have h0 : s.n_proc ≠ 0 := by omega
  refine ⟨hself, ?_, ?_⟩
  · have hc : HasCycle (build_wfg s) := by
      refine ⟨[p], by simp [IsCycle], ?_⟩
      intro i hi
      have hi0 : i = 0 := by simpa using hi
      subst hi0
      simpa using hself
    cases hres : detect_deadlock s with
    | noProcesses => exact absurd hres (detect_ne_noProcesses s h0)
    | noDeadlock => exact absurd hc (detect_complete s h0 hres)
    | deadlock c => exact ⟨c, rfl⟩
  · intro honly
    unfold detect_deadlock
    rw [if_neg h0]
    have hstep := detect_only_self_loop (build_wfg s) s.n_proc p (s.n_proc - 1)
      hp hself honly
    rw [show s.n_proc - 1 + 1 = s.n_proc by omega] at hstep
    rcases hres2 : detectLoop (build_wfg s) s.n_proc s.n_proc (List.range s.n_proc)
        initDfsState with ⟨st2, res⟩
    rw [hres2] at hstep
    simp only at hstep
    rw [hstep]

/-- A one-process, one-resource store in which P0 requests and holds R0:
the minimal self-loop scenario. -/
def selfLoopState : RAG where
  n_proc := 1
  n_res := 1
  req := fun p r => p == 0 && r == 0
  alloc := fun r p => r == 0 && p == 0
  P := fun _ => ['A']
  R := fun _ => ['B']

theorem C6_witness : detect_deadlock selfLoopState = DetectResult.deadlock [0] :=
  (C6_self_loop selfLoopState 0 0 (by decide) (by decide) (by decide)
      (by decide)).2.2
    (fun a b h => by
      have hb : a < 1 ∧ b < 1 := build_wfg_lt selfLoopState a b h
      omega)
